import Mathlib

/-!
Verification of the mempool core of the repository (`src/full_node/mempool.py`).

The Python class `Mempool` keeps four indices over admitted transactions
(`MempoolItem`s): `spends` (by transaction id), `sorted_spends` (an ordered map
from fee-per-cost to the insertion-ordered dict of items at that exact rate),
`additions` (by produced coin id) and `removals` (by consumed coin id), plus a
capacity bound `size`.

Python dicts are modelled as association lists over `Nat` keys with Python's
semantics: assignment replaces the first matching key in place (keeping its
position) or appends a fresh key at the end; `del` on a missing key raises
`KeyError`, modelled by `Option`.  `SortedDict.peekitem(index=0)` returns the
entry with the smallest key; `list(d.values())[0]` on an inner dict returns the
first-inserted value, i.e. the head of the association list.  Identifiers
(transaction ids `bytes32`, coin ids) and fee rates are abstracted as `Nat`
(only equality of ids and ordering of rates matter to the code).
-/

set_option autoImplicit false

namespace Chia

/-- A Python dict with `Nat` keys, as an association list in insertion order. -/
abbrev Dict (β : Type) : Type := List (Nat × β)

namespace Dict

variable {β : Type}

/-- The dict's keys, in insertion order (`d.keys()`). -/
def keys (d : Dict β) : List Nat := d.map Prod.fst

/-- Python `d[k]` as a lookup: the value at the first (only) occurrence of `k`. -/
def get? (d : Dict β) (k : Nat) : Option β :=
  match d with
  | [] => none
  | (k', v) :: rest => if k' = k then some v else get? rest k

/-- Python `d[k] = v`: replace in place if `k` is present, else append at the end. -/
def set (d : Dict β) (k : Nat) (v : β) : Dict β :=
  match d with
  | [] => [(k, v)]
  | (k', v') :: rest => if k' = k then (k, v) :: rest else (k', v') :: set rest k v

/-- Python `del d[k]`: `none` models the `KeyError` raised when `k` is absent. -/
def del? (d : Dict β) (k : Nat) : Option (Dict β) :=
  match d with
  | [] => none
  | (k', v') :: rest =>
    if k' = k then some rest else (del? rest k).map (fun r => (k', v') :: r)

/-- Deletion at a key known to be present (used only where Python cannot raise). -/
def delT (d : Dict β) (k : Nat) : Dict β := (del? d k).getD d

/-- Python `for x in xs: del d[x]` — fails (raises) at the first missing key. -/
def delAll? (d : Dict β) (ks : List Nat) : Option (Dict β) :=
  match ks with
  | [] => some d
  | k :: rest =>
    match del? d k with
    | none => none
    | some d' => delAll? d' rest

/-- Python `for x in xs: d[x] = v` with one fixed value. -/
def setAll (d : Dict β) (ks : List Nat) (v : β) : Dict β :=
  ks.foldl (fun d' k => set d' k v) d

/-- The smallest key of the dict, if any (`SortedDict` iterates by key order). -/
def minKey? (d : Dict β) : Option Nat :=
  match d with
  | [] => none
  | (k, _) :: rest =>
    match minKey? rest with
    | none => some k
    | some k' => some (min k k')

/-- `SortedDict.peekitem(index=0)`: the entry with the smallest key; raises
(`none`) on an empty dict. -/
def peekMin? (d : Dict β) : Option (Nat × β) :=
  match minKey? d with
  | none => none
  | some k => (get? d k).map (fun v => (k, v))

end Dict

open Dict

/-- One pending transaction's admission record: its id (`item.name`), its
fee-per-cost priority, and the coin ids of `item.spend_bundle.removals()`
(consumed coins) and `item.spend_bundle.additions()` (produced coins). -/
structure MempoolItem where
  name : Nat
  fee_per_cost : Nat
  bundle_removals : List Nat
  bundle_additions : List Nat
deriving DecidableEq

/-- The `Mempool` state: `spends` is the by-id index, `sorted_spends` maps each
fee rate to the dict of items at that exact rate, `additions` maps produced
coin ids to items, `removals` maps consumed coin ids to items, and `size` is
the capacity bound fixed at creation.  The chain-tip header is opaque context
never read by the operations and is omitted. -/
structure Mempool where
  spends : Dict MempoolItem
  sorted_spends : Dict (Dict MempoolItem)
  additions : Dict MempoolItem
  removals : Dict MempoolItem
  min_fee : Nat
  size : Nat
deriving DecidableEq

namespace Mempool

/-- `Mempool.create(tip, size)`: the empty pool with capacity `size`. -/
def create (size : Nat) : Mempool :=
  { spends := [], sorted_spends := [], additions := [], removals := []
    min_fee := 0, size := size }

/-- `Mempool.at_full_capacity`: `len(self.spends.keys()) >= self.size`. -/
def at_full_capacity (m : Mempool) : Bool :=
  decide (m.size ≤ m.spends.length)

/-- `Mempool.get_min_fee_rate`: when full, `peekitem(index=0)` on
`sorted_spends` (raising, i.e. `none`, if it is empty); otherwise `0`. -/
def get_min_fee_rate (m : Mempool) : Option Nat :=
  if m.at_full_capacity then
    (peekMin? m.sorted_spends).map Prod.fst
  else
    some 0

/-- `Mempool.remove_spend(item)`, with each `del` made explicit in source
order: every consumed coin leaves `removals`, every produced coin leaves
`additions`, `item.name` leaves `spends`, `item.name` leaves its fee bucket,
and the bucket itself is deleted when it became empty. -/
def remove_spend (m : Mempool) (item : MempoolItem) : Option Mempool := do
  let removals' ← delAll? m.removals item.bundle_removals
  let additions' ← delAll? m.additions item.bundle_additions
  let spends' ← del? m.spends item.name
  let bucket ← get? m.sorted_spends item.fee_per_cost
  let bucket' ← del? bucket item.name
  let sorted1 := set m.sorted_spends item.fee_per_cost bucket'
  let sorted' := if bucket'.length = 0 then delT sorted1 item.fee_per_cost else sorted1
  some { m with
    spends := spends', sorted_spends := sorted'
    additions := additions', removals := removals' }

/-- The insertion half of `Mempool.add_to_pool` (its lines after the eviction
branch): insert the item into `spends`, into its fee bucket (created when
absent), and record the passed coin lists in `additions` and `removals`. -/
def insert_into_pool (m1 : Mempool) (item : MempoolItem) (adds : List Nat)
    (removals_keys : List Nat) : Mempool :=
  { m1 with
    spends := set m1.spends item.name item
    sorted_spends :=
      match get? m1.sorted_spends item.fee_per_cost with
      | some bucket => set m1.sorted_spends item.fee_per_cost (set bucket item.name item)
      | none => set m1.sorted_spends item.fee_per_cost (set [] item.name item)
    additions := setAll m1.additions adds item
    removals := setAll m1.removals removals_keys item }

/-- `Mempool.add_to_pool(item, additions, removals_dic)`: when at full
capacity, first evict `list(val.values())[0]` of the minimum-fee bucket via
`remove_spend`; then insert via `insert_into_pool` (`removals_keys` stands
for `removals_dic.keys()`). -/
def add_to_pool (m : Mempool) (item : MempoolItem) (adds : List Nat)
    (removals_keys : List Nat) : Option Mempool := do
  let m1 ←
    if m.at_full_capacity then do
      let fv ← peekMin? m.sorted_spends
      let to_remove ← (fv.2.map Prod.snd).head?
      remove_spend m to_remove
    else
      some m
  some (insert_into_pool m1 item adds removals_keys)

/-- Look an id up inside the fee bucket for rate `f` of `sorted_spends`. -/
def bucket_get (m : Mempool) (f n : Nat) : Option MempoolItem :=
  match get? m.sorted_spends f with
  | none => none
  | some b => get? b n

/-- Well-formedness every Python dict enjoys by construction: no duplicate
keys in any of the four indices nor in any fee bucket. -/
def WF (m : Mempool) : Prop :=
  (keys m.spends).Nodup ∧ (keys m.sorted_spends).Nodup ∧
  (∀ q ∈ m.sorted_spends, (keys (q.2 : Dict MempoolItem)).Nodup) ∧
  (keys m.additions).Nodup ∧ (keys m.removals).Nodup

instance (m : Mempool) : Decidable (WF m) :=
  decidable_of_iff ((keys m.spends).Nodup ∧ (keys m.sorted_spends).Nodup ∧
    (∀ q ∈ m.sorted_spends, (keys (q.2 : Dict MempoolItem)).Nodup) ∧
    (keys m.additions).Nodup ∧ (keys m.removals).Nodup) Iff.rfl

/-- `sorted_spends` never maps a fee rate to an empty bucket. -/
def no_empty_buckets (m : Mempool) : Prop :=
  ∀ q ∈ m.sorted_spends, (q.2 : Dict MempoolItem) ≠ []

instance (m : Mempool) : Decidable (no_empty_buckets m) :=
  decidable_of_iff (∀ q ∈ m.sorted_spends, (q.2 : Dict MempoolItem) ≠ []) Iff.rfl

/-- Full index coherence of a pool state: every admitted entry sits in exactly
its own fee bucket and in no other, buckets hold exactly admitted entries of
that exact rate, the two coin maps point at admitted entries owning those
coins, and every admitted entry's coins are registered and map back to it. -/
@[mk_iff]
structure Coherent (m : Mempool) : Prop where
  wf : WF m
  name_eq : ∀ p ∈ m.spends, (p.2 : MempoolItem).name = p.1
  in_bucket : ∀ p ∈ m.spends, bucket_get m (p.2 : MempoolItem).fee_per_cost p.1 = some p.2
  not_in_other : ∀ p ∈ m.spends, ∀ q ∈ m.sorted_spends,
    q.1 ≠ (p.2 : MempoolItem).fee_per_cost → get? (q.2 : Dict MempoolItem) p.1 = none
  buckets_ok : ∀ q ∈ m.sorted_spends, (q.2 : Dict MempoolItem) ≠ [] ∧
    ∀ r ∈ (q.2 : Dict MempoolItem), get? m.spends r.1 = some r.2 ∧
      (r.2 : MempoolItem).fee_per_cost = q.1 ∧ (r.2 : MempoolItem).name = r.1
  removals_ok : ∀ p ∈ m.removals, get? m.spends (p.2 : MempoolItem).name = some p.2 ∧
    p.1 ∈ (p.2 : MempoolItem).bundle_removals
  additions_ok : ∀ p ∈ m.additions, get? m.spends (p.2 : MempoolItem).name = some p.2 ∧
    p.1 ∈ (p.2 : MempoolItem).bundle_additions
  coins_mapped : ∀ p ∈ m.spends,
    (∀ c ∈ (p.2 : MempoolItem).bundle_removals, get? m.removals c = some p.2) ∧
    (∀ c ∈ (p.2 : MempoolItem).bundle_additions, get? m.additions c = some p.2)
  coins_nodup : ∀ p ∈ m.spends,
    (p.2 : MempoolItem).bundle_removals.Nodup ∧ (p.2 : MempoolItem).bundle_additions.Nodup

instance (m : Mempool) : Decidable (Coherent m) :=
  decidable_of_iff _ (coherent_iff m).symm

/-- States reachable from `create` by sequences of completed (non-raising)
`add_to_pool` / `remove_spend` calls, with no precondition on the calls. -/
inductive Reachable : Mempool → Prop where
  | created (size : Nat) : Reachable (Mempool.create size)
  | added {m m' : Mempool} {item : MempoolItem} {adds removals_keys : List Nat} :
      Reachable m → add_to_pool m item adds removals_keys = some m' → Reachable m'
  | removed {m m' : Mempool} {item : MempoolItem} :
      Reachable m → remove_spend m item = some m' → Reachable m'

/-- States reachable under the caller contract: a fresh id, the coin lists
passed to `add_to_pool` are exactly the item's spend-bundle coin sets (without
duplicates), no currently admitted entry shares a consumed or a produced coin
with the new item (the caller resolved conflicts first), and removal only of
currently admitted entries. -/
inductive ReachableOK : Mempool → Prop where
  | created (size : Nat) : ReachableOK (Mempool.create size)
  | added {m m' : Mempool} {item : MempoolItem} :
      ReachableOK m →
      get? m.spends item.name = none →
      item.bundle_removals.Nodup →
      item.bundle_additions.Nodup →
      (∀ p ∈ m.spends, (∀ c ∈ (p.2 : MempoolItem).bundle_removals, c ∉ item.bundle_removals) ∧
        (∀ c ∈ (p.2 : MempoolItem).bundle_additions, c ∉ item.bundle_additions)) →
      add_to_pool m item item.bundle_additions item.bundle_removals = some m' →
      ReachableOK m'
  | removed {m m' : Mempool} {item : MempoolItem} :
      ReachableOK m → get? m.spends item.name = some item →
      remove_spend m item = some m' → ReachableOK m'

/-- The well-formedness of `sorted_spends` preserved by every completed call:
no duplicate fee keys, and no bucket is empty. -/
def buckets_wf (m : Mempool) : Prop :=
  (keys m.sorted_spends).Nodup ∧ no_empty_buckets m

/-! Concrete example data used by the witness theorems: small items with
distinct ids, fee rates and coin ids, and the pools built from them. -/

def itemA : MempoolItem := ⟨1, 5, [101], [201]⟩

def itemB : MempoolItem := ⟨2, 3, [102], [202]⟩

def itemC : MempoolItem := ⟨3, 10, [103], [203]⟩

/-- Same id as `itemA`, different fee rate (a contract-violating duplicate). -/
def itemA2 : MempoolItem := ⟨1, 3, [101], [201]⟩

def poolA : Mempool :=
  (add_to_pool (create 2) itemA itemA.bundle_additions itemA.bundle_removals).getD (create 0)

def poolAB : Mempool :=
  (add_to_pool poolA itemB itemB.bundle_additions itemB.bundle_removals).getD (create 0)

def poolDup : Mempool :=
  (add_to_pool poolA itemA2 itemA2.bundle_additions itemA2.bundle_removals).getD (create 0)

/-- Scenario B data: capacity 1, two items with equal fee rate. -/
def itemX1 : MempoolItem := ⟨1, 1, [110], [210]⟩

def itemY1 : MempoolItem := ⟨2, 1, [111], [211]⟩

def poolX1 : Mempool :=
  (add_to_pool (create 1) itemX1 itemX1.bundle_additions itemX1.bundle_removals).getD (create 0)

def poolY1 : Mempool :=
  (add_to_pool poolX1 itemY1 itemY1.bundle_additions itemY1.bundle_removals).getD (create 0)

/-- Scenario C data: a pool holding only one item at fee rate 7, then removed. -/
def item7 : MempoolItem := ⟨9, 7, [55], [66]⟩

def pool7 : Mempool :=
  (add_to_pool (create 3) item7 item7.bundle_additions item7.bundle_removals).getD (create 0)

def pool7r : Mempool := (remove_spend pool7 item7).getD (create 0)

/-- Conflict data: two items consuming the same coin `100`. -/
def itemE1 : MempoolItem := ⟨1, 5, [100], []⟩

def itemE2 : MempoolItem := ⟨2, 6, [100], []⟩

def poolF1 : Mempool :=
  (add_to_pool (create 10) itemE1 itemE1.bundle_additions itemE1.bundle_removals).getD (create 0)

def poolF2 : Mempool :=
  (add_to_pool poolF1 itemE2 itemE2.bundle_additions itemE2.bundle_removals).getD (create 0)

def poolF3 : Mempool := (remove_spend poolF2 itemE1).getD (create 0)

end Mempool

namespace Dict

variable {β : Type}

/-! Basic lemmas about the dict operations. -/

theorem keys_nil : keys ([] : Dict β) = [] := rfl

theorem keys_cons {a : Nat} {b : β} {d : Dict β} : keys ((a, b) :: d) = a :: keys d := rfl

theorem mem_keys {d : Dict β} {k : Nat} : k ∈ keys d ↔ ∃ v, (k, v) ∈ d := by
  induction d with
  | nil => simp [keys_nil]
  | cons p rest ih =>
    obtain ⟨a, b⟩ := p
    by_cases ha : a = k
    · subst ha
      simp [keys_cons]
    · have ha' : ¬ k = a := fun hh => ha hh.symm
      simp [keys_cons, ha', Ne.symm ha', ih, Prod.ext_iff]

theorem get?_nil {k : Nat} : get? ([] : Dict β) k = none := rfl

theorem get?_eq_none_iff {d : Dict β} {k : Nat} : get? d k = none ↔ k ∉ keys d := by
  induction d with
  | nil => simp [get?, keys_nil]
  | cons p rest ih =>
    obtain ⟨k', v'⟩ := p
    by_cases h : k' = k
    · subst h
      simp [get?, keys_cons]
    · have h' : ¬ k = k' := fun hh => h hh.symm
      simp [get?, keys_cons, h, h', ih]

theorem get?_isSome_iff {d : Dict β} {k : Nat} : (get? d k).isSome ↔ k ∈ keys d := by
  rw [← Decidable.not_iff_not, ← get?_eq_none_iff, Option.not_isSome_iff_eq_none]

theorem mem_of_get? {d : Dict β} {k : Nat} {v : β} (h : get? d k = some v) : (k, v) ∈ d := by
  induction d with
  | nil => simp [get?] at h
  | cons p rest ih =>
    obtain ⟨k', v'⟩ := p
    by_cases hk : k' = k
    · simp [get?, hk] at h
      simp [hk, h]
    · simp [get?, hk] at h
      exact List.mem_cons_of_mem _ (ih h)

theorem mem_keys_of_get? {d : Dict β} {k : Nat} {v : β} (h : get? d k = some v) :
    k ∈ keys d := mem_keys.2 ⟨v, mem_of_get? h⟩

theorem get?_of_mem {d : Dict β} {k : Nat} {v : β} (hd : (keys d).Nodup)
    (h : (k, v) ∈ d) : get? d k = some v := by
  induction d with
  | nil => simp at h
  | cons p rest ih =>
    obtain ⟨k', v'⟩ := p
    rw [keys_cons, List.nodup_cons] at hd
    rcases List.mem_cons.1 h with h1 | h1
    · obtain ⟨rfl, rfl⟩ : k = k' ∧ v = v' := by simpa [Prod.ext_iff] using h1
      simp [get?]
    · have hk : ¬ k' = k := fun hh => hd.1 (hh ▸ mem_keys.2 ⟨v, h1⟩)
      simp [get?, hk]
      exact ih hd.2 h1

theorem get?_set_self {d : Dict β} {k : Nat} {v : β} : get? (set d k v) k = some v := by
  induction d with
  | nil => simp [set, get?]
  | cons p rest ih =>
    obtain ⟨k', v'⟩ := p
    by_cases h : k' = k <;> simp [set, get?, h, ih]

theorem get?_set_ne {d : Dict β} {k k' : Nat} {v : β} (h : k' ≠ k) :
    get? (set d k v) k' = get? d k' := by
  have h' : ¬ k = k' := fun hh => h hh.symm
  induction d with
  | nil => simp [set, get?, h']
  | cons p rest ih =>
    obtain ⟨a, b⟩ := p
    by_cases ha : a = k
    · subst ha
      simp [set, get?, h']
    · simp [set, get?, ha, ih]

theorem keys_set {d : Dict β} {k : Nat} {v : β} :
    keys (set d k v) = if k ∈ keys d then keys d else keys d ++ [k] := by
  induction d with
  | nil => simp [set, keys_nil, keys_cons]
  | cons p rest ih =>
    obtain ⟨k', v'⟩ := p
    by_cases h : k' = k
    · subst h
      simp [set, keys_cons]
    · have hne : ¬ k = k' := fun hh => h hh.symm
      by_cases hm : k ∈ keys rest <;>
        simp [set, keys_cons, h, hne, hm, ih]

theorem mem_keys_set {d : Dict β} {k a : Nat} {v : β} :
    a ∈ keys (set d k v) ↔ a = k ∨ a ∈ keys d := by
  rw [keys_set]
  by_cases hm : k ∈ keys d
  · rw [if_pos hm]
    constructor
    · exact Or.inr
    · rintro (rfl | h)
      · exact hm
      · exact h
  · rw [if_neg hm]
    simp [or_comm]

theorem nodup_keys_set {d : Dict β} {k : Nat} {v : β} (hd : (keys d).Nodup) :
    (keys (set d k v)).Nodup := by
  rw [keys_set]
  by_cases hm : k ∈ keys d
  · rw [if_pos hm]
    exact hd
  · rw [if_neg hm]
    refine List.Nodup.append hd (List.nodup_singleton k) ?_
    intro a ha hak
    rw [List.mem_singleton] at hak
    exact hm (hak ▸ ha)

theorem mem_set {d : Dict β} {k : Nat} {v : β} {p : Nat × β} (h : p ∈ set d k v) :
    p = (k, v) ∨ p ∈ d := by
  induction d with
  | nil => simp [set] at h; simp [h]
  | cons q rest ih =>
    obtain ⟨a, b⟩ := q
    by_cases ha : a = k
    · simp [set, ha] at h
      rcases h with h | h <;> simp [h]
    · simp [set, ha] at h
      rcases h with h | h
      · simp [h]
      · rcases ih h with h1 | h1 <;> simp [h1]

theorem length_set_le {d : Dict β} {k : Nat} {v : β} :
    (set d k v).length ≤ d.length + 1 := by
  induction d with
  | nil => simp [set]
  | cons q rest ih =>
    obtain ⟨a, b⟩ := q
    by_cases ha : a = k
    · simp [set, ha]
    · simp [set, ha]
      omega

theorem length_set_of_not_mem {d : Dict β} {k : Nat} {v : β} (h : k ∉ keys d) :
    (set d k v).length = d.length + 1 := by
  induction d with
  | nil => simp [set]
  | cons p rest ih =>
    obtain ⟨a, b⟩ := p
    rw [keys_cons, List.mem_cons] at h
    push_neg at h
    have ha : ¬ a = k := fun hh => h.1 hh.symm
    simp [set, ha, ih h.2]

theorem del?_eq_none_iff {d : Dict β} {k : Nat} : del? d k = none ↔ k ∉ keys d := by
  induction d with
  | nil => simp [del?, keys_nil]
  | cons q rest ih =>
    obtain ⟨a, b⟩ := q
    by_cases ha : a = k
    · subst ha
      simp [del?, keys_cons]
    · have ha' : ¬ k = a := fun hh => ha hh.symm
      simp [del?, keys_cons, ha, ha', ih]

theorem del?_isSome_of_mem {d : Dict β} {k : Nat} (h : k ∈ keys d) :
    ∃ d', del? d k = some d' := by
  rcases hd : del? d k with _ | d'
  · exact absurd (del?_eq_none_iff.1 hd) (not_not.2 h)
  · exact ⟨d', rfl⟩

theorem length_del? {d d' : Dict β} {k : Nat} (h : del? d k = some d') :
    d'.length + 1 = d.length := by
  induction d generalizing d' with
  | nil => simp [del?] at h
  | cons q rest ih =>
    obtain ⟨a, b⟩ := q
    by_cases ha : a = k
    · simp [del?, ha] at h
      simp [← h]
    · simp [del?, ha] at h
      rcases h with ⟨r, hr, hd'⟩
      simp [← hd', ih hr]

theorem del?_sublist {d d' : Dict β} {k : Nat} (h : del? d k = some d') :
    List.Sublist d' d := by
  induction d generalizing d' with
  | nil => simp [del?] at h
  | cons q rest ih =>
    obtain ⟨a, b⟩ := q
    by_cases ha : a = k
    · simp [del?, ha] at h
      exact h ▸ List.sublist_cons_self _ _
    · simp [del?, ha] at h
      rcases h with ⟨r, hr, hd'⟩
      exact hd' ▸ (ih hr).cons₂ _

theorem mem_del? {d d' : Dict β} {k : Nat} {p : Nat × β} (h : del? d k = some d')
    (hp : p ∈ d') : p ∈ d := (del?_sublist h).mem hp

theorem nodup_keys_del? {d d' : Dict β} {k : Nat} (hd : (keys d).Nodup)
    (h : del? d k = some d') : (keys d').Nodup :=
  hd.sublist (List.Sublist.map Prod.fst (del?_sublist h))

theorem get?_del? {d d' : Dict β} {k : Nat} (hd : (keys d).Nodup)
    (h : del? d k = some d') (k' : Nat) :
    get? d' k' = if k' = k then none else get? d k' := by
  induction d generalizing d' with
  | nil => simp [del?] at h
  | cons q rest ih =>
    obtain ⟨a, b⟩ := q
    rw [keys_cons, List.nodup_cons] at hd
    by_cases ha : a = k
    · subst ha
      simp [del?] at h
      subst h
      by_cases hk : k' = a
      · subst hk
        rw [if_pos rfl]
        exact get?_eq_none_iff.2 hd.1
      · have hk' : ¬ a = k' := fun hh => hk hh.symm
        simp [get?, hk, hk']
    · simp [del?, ha] at h
      rcases h with ⟨r, hr, hd'⟩
      subst hd'
      by_cases hk : k' = k
      · subst hk
        have hak : ¬ a = k' := ha
        simp [get?, hak, ih hd.2 hr]
      · by_cases hak : a = k'
        · simp [get?, hak, hk]
        · simp [get?, hak, hk, ih hd.2 hr]

theorem delAll?_spec {d : Dict β} {ks : List Nat} (hks : ks.Nodup)
    (hd : (keys d).Nodup) (hmem : ∀ c ∈ ks, c ∈ keys d) :
    ∃ d', delAll? d ks = some d' ∧ (keys d').Nodup ∧
      ∀ c, get? d' c = if c ∈ ks then none else get? d c := by
  induction ks generalizing d with
  | nil => exact ⟨d, rfl, hd, by simp [delAll?]⟩
  | cons k rest ih =>
    have hk : k ∈ keys d := hmem k (List.mem_cons_self k rest)
    obtain ⟨d1, hd1⟩ := del?_isSome_of_mem hk
    rw [List.nodup_cons] at hks
    have hd1n : (keys d1).Nodup := nodup_keys_del? hd hd1
    have hget := get?_del? hd hd1
    have hmem1 : ∀ c ∈ rest, c ∈ keys d1 := by
      intro c hc
      have hc' : c ∈ keys d := hmem c (List.mem_cons_of_mem _ hc)
      have hgc : get? d1 c = get? d c := by
        rw [hget c, if_neg (fun (h : c = k) => hks.1 (h ▸ hc))]
      rw [← get?_isSome_iff, hgc, get?_isSome_iff]
      exact hc'
    obtain ⟨d', hall, hd'n, hchar⟩ := ih hks.2 hd1n hmem1
    refine ⟨d', by simp [delAll?, hd1, hall], hd'n, ?_⟩
    intro c
    rw [hchar c]
    by_cases hc : c ∈ rest
    · simp [hc]
    · by_cases hck : c = k
      · subst hck
        simp [hc, hget c]
      · simp [hc, hck, hget c]

theorem delAll?_sublist {d d' : Dict β} {ks : List Nat}
    (h : delAll? d ks = some d') : List.Sublist d' d := by
  induction ks generalizing d with
  | nil =>
    simp [delAll?] at h
    exact h ▸ List.Sublist.refl d
  | cons k rest ih =>
    rcases h1 : del? d k with _ | d1
    · simp [delAll?, h1] at h
    · simp [delAll?, h1] at h
      exact (ih h).trans (del?_sublist h1)

theorem setAll_nil {d : Dict β} {v : β} : setAll d [] v = d := rfl

theorem setAll_cons {d : Dict β} {k : Nat} {rest : List Nat} {v : β} :
    setAll d (k :: rest) v = setAll (set d k v) rest v := rfl

theorem get?_setAll {d : Dict β} {ks : List Nat} {v : β} (c : Nat) :
    get? (setAll d ks v) c = if c ∈ ks then some v else get? d c := by
  induction ks generalizing d with
  | nil => simp [setAll_nil]
  | cons k rest ih =>
    rw [setAll_cons, ih]
    by_cases hc : c ∈ rest
    · simp [hc]
    · by_cases hck : c = k
      · subst hck
        simp [hc, get?_set_self]
      · simp [hc, hck, get?_set_ne hck]

theorem nodup_keys_setAll {d : Dict β} {ks : List Nat} {v : β}
    (hd : (keys d).Nodup) : (keys (setAll d ks v)).Nodup := by
  induction ks generalizing d with
  | nil => exact hd
  | cons k rest ih => exact setAll_cons ▸ ih (nodup_keys_set hd)

theorem mem_setAll {d : Dict β} {ks : List Nat} {v : β} {p : Nat × β}
    (h : p ∈ setAll d ks v) : (p.1 ∈ ks ∧ p.2 = v) ∨ p ∈ d := by
  induction ks generalizing d with
  | nil => exact Or.inr h
  | cons k rest ih =>
    rw [setAll_cons] at h
    rcases ih h with h1 | h1
    · exact Or.inl ⟨List.mem_cons_of_mem _ h1.1, h1.2⟩
    · rcases mem_set h1 with h2 | h2
      · exact Or.inl ⟨by simp [h2], by simp [h2]⟩
      · exact Or.inr h2

theorem delT_of_del? {d d' : Dict β} {k : Nat} (h : del? d k = some d') :
    delT d k = d' := by
  simp [delT, h]

theorem minKey?_eq_none {d : Dict β} (h : minKey? d = none) : d = [] := by
  cases d with
  | nil => rfl
  | cons p rest =>
    obtain ⟨a, b⟩ := p
    cases hm : minKey? rest with
    | none => simp [minKey?, hm] at h
    | some k' => simp [minKey?, hm] at h

theorem minKey?_isSome_of_ne_nil {d : Dict β} (h : d ≠ []) :
    ∃ k, minKey? d = some k := by
  cases hm : minKey? d with
  | none => exact absurd (minKey?_eq_none hm) h
  | some k => exact ⟨k, rfl⟩

theorem minKey?_mem {d : Dict β} {k : Nat} (h : minKey? d = some k) : k ∈ keys d := by
  induction d generalizing k with
  | nil => simp [minKey?] at h
  | cons p rest ih =>
    obtain ⟨a, b⟩ := p
    cases hm : minKey? rest with
    | none =>
      simp [minKey?, hm] at h
      simp [keys_cons, h]
    | some m =>
      simp [minKey?, hm] at h
      rcases le_total a m with hle | hle
      · rw [← h, min_eq_left hle, keys_cons]
        exact List.mem_cons_self a (keys rest)
      · rw [← h, min_eq_right hle, keys_cons]
        exact List.mem_cons_of_mem _ (ih hm)

theorem minKey?_le {d : Dict β} {k : Nat} (h : minKey? d = some k) :
    ∀ k' ∈ keys d, k ≤ k' := by
  induction d generalizing k with
  | nil => simp [keys_nil]
  | cons p rest ih =>
    obtain ⟨a, b⟩ := p
    intro k' hk'
    rw [keys_cons, List.mem_cons] at hk'
    cases hm : minKey? rest with
    | none =>
      have hrest : rest = [] := minKey?_eq_none hm
      simp [minKey?, hm] at h
      rcases hk' with rfl | hk'
      · omega
      · rw [hrest, keys_nil] at hk'
        simp at hk'
    | some m =>
      simp [minKey?, hm] at h
      rcases hk' with rfl | hk'
      · omega
      · have := ih hm k' hk'
        omega

theorem peekMin?_inv {d : Dict β} {kv : Nat × β} (h : peekMin? d = some kv) :
    get? d kv.1 = some kv.2 := by
  obtain ⟨k0, v0⟩ := kv
  unfold peekMin? at h
  rcases hm : minKey? d with _ | k
  · rw [hm] at h
    simp at h
  · rw [hm] at h
    simp at h
    rcases hg : get? d k with _ | v
    · rw [hg] at h
      simp at h
    · rw [hg] at h
      simp at h
      obtain ⟨rfl, rfl⟩ := h
      exact hg

theorem peekMin?_spec {d : Dict β} (hd : d ≠ []) :
    ∃ k v, peekMin? d = some (k, v) ∧ get? d k = some v ∧ ∀ k' ∈ keys d, k ≤ k' := by
  obtain ⟨k, hk⟩ := minKey?_isSome_of_ne_nil hd
  have hmem := minKey?_mem hk
  cases hg : get? d k with
  | none => exact absurd (get?_eq_none_iff.1 hg) (not_not.2 hmem)
  | some v => exact ⟨k, v, by simp [peekMin?, hk, hg], hg, minKey?_le hk⟩

end Dict

namespace Mempool

theorem bucket_get_eq {m : Mempool} {f n : Nat} {b : Dict MempoolItem}
    (h : get? m.sorted_spends f = some b) : bucket_get m f n = get? b n := by
  simp [bucket_get, h]

theorem bucket_get_eq_none {m : Mempool} {f n : Nat}
    (h : get? m.sorted_spends f = none) : bucket_get m f n = none := by
  simp [bucket_get, h]

/-! Inversion of the two mutating operations: what a completed call must have
computed, read off the `Option.bind` chain of the definitions. -/

theorem remove_spend_inversion {m m' : Mempool} {item : MempoolItem}
    (h : remove_spend m item = some m') :
    ∃ R A S b b',
      delAll? m.removals item.bundle_removals = some R ∧
      delAll? m.additions item.bundle_additions = some A ∧
      del? m.spends item.name = some S ∧
      get? m.sorted_spends item.fee_per_cost = some b ∧
      del? b item.name = some b' ∧
      m' = { m with
        spends := S
        sorted_spends :=
          if b' = [] then
            delT (set m.sorted_spends item.fee_per_cost b') item.fee_per_cost
          else set m.sorted_spends item.fee_per_cost b'
        additions := A
        removals := R } := by
  rcases hR : delAll? m.removals item.bundle_removals with _ | R
  · simp [remove_spend, hR] at h
  rcases hA : delAll? m.additions item.bundle_additions with _ | A
  · simp [remove_spend, hR, hA] at h
  rcases hS : del? m.spends item.name with _ | S
  · simp [remove_spend, hR, hA, hS] at h
  rcases hb : get? m.sorted_spends item.fee_per_cost with _ | b
  · simp [remove_spend, hR, hA, hS, hb] at h
  rcases hb' : del? b item.name with _ | b'
  · simp [remove_spend, hR, hA, hS, hb, hb'] at h
  refine ⟨R, A, S, b, b', rfl, rfl, rfl, rfl, hb', ?_⟩
  simp [remove_spend, hR, hA, hS, hb, hb'] at h
  exact h.symm

theorem add_to_pool_inversion {m m' : Mempool} {item : MempoolItem}
    {adds removals_keys : List Nat}
    (h : add_to_pool m item adds removals_keys = some m') :
    ∃ m1,
      ((m.at_full_capacity = false ∧ m1 = m) ∨
        (m.at_full_capacity = true ∧ ∃ fv to_remove,
          peekMin? m.sorted_spends = some fv ∧
          (fv.2.map Prod.snd).head? = some to_remove ∧
          remove_spend m to_remove = some m1)) ∧
      m' = insert_into_pool m1 item adds removals_keys := by
  cases hful : m.at_full_capacity with
  | false =>
    simp [add_to_pool, hful] at h
    exact ⟨m, Or.inl ⟨rfl, rfl⟩, h.symm⟩
  | true =>
    rcases hfv : peekMin? m.sorted_spends with _ | fv
    · simp [add_to_pool, hful, hfv] at h
    rcases hhd : fv.2.head? with _ | r
    · simp [add_to_pool, hful, hfv, hhd] at h
    rcases hrm : remove_spend m r.2 with _ | m1
    · simp [add_to_pool, hful, hfv, hhd, hrm] at h
    simp [add_to_pool, hful, hfv, hhd, hrm] at h
    exact ⟨m1, Or.inr ⟨rfl, fv, r.2, rfl, by simp [List.head?_map, hhd], hrm⟩, h.symm⟩

theorem set_ne_nil {β : Type} {d : Dict β} {k : Nat} {v : β} : set d k v ≠ [] := by
  cases d with
  | nil => simp [Dict.set]
  | cons p rest =>
    obtain ⟨a, b⟩ := p
    by_cases ha : a = k
    · simp [Dict.set, ha]
    · simp [Dict.set, ha]

theorem buckets_wf_remove {m m' : Mempool} {item : MempoolItem}
    (hw : buckets_wf m) (h : remove_spend m item = some m') : buckets_wf m' := by
  obtain ⟨R, A, S, b, b', _, _, _, hb, hb', hm'⟩ := remove_spend_inversion h
  obtain ⟨hnd, hne⟩ := hw
  have hndset : (keys (set m.sorted_spends item.fee_per_cost b')).Nodup :=
    nodup_keys_set hnd
  by_cases hlen : b' = []
  · -- the bucket became empty and its key is deleted
    have hkey : item.fee_per_cost ∈ keys (set m.sorted_spends item.fee_per_cost b') :=
      mem_keys_set.2 (Or.inl rfl)
    obtain ⟨d2, hd2⟩ := del?_isSome_of_mem hkey
    have hdelT : delT (set m.sorted_spends item.fee_per_cost b') item.fee_per_cost = d2 :=
      delT_of_del? hd2
    have hsorted : m'.sorted_spends = d2 := by
      rw [hm']
      show (if b' = [] then
          delT (set m.sorted_spends item.fee_per_cost b') item.fee_per_cost
        else set m.sorted_spends item.fee_per_cost b') = d2
      rw [if_pos hlen]
      exact hdelT
    constructor
    · rw [hsorted]
      exact nodup_keys_del? hndset hd2
    · intro q hq
      rw [hsorted] at hq
      have hq2 : get? d2 q.1 = some q.2 :=
        get?_of_mem (nodup_keys_del? hndset hd2) hq
      rw [get?_del? hndset hd2 q.1] at hq2
      by_cases hqf : q.1 = item.fee_per_cost
      · simp [hqf] at hq2
      · rw [if_neg hqf, get?_set_ne hqf] at hq2
        exact hne (q.1, q.2) (mem_of_get? hq2)
  · have hsorted : m'.sorted_spends = set m.sorted_spends item.fee_per_cost b' := by
      rw [hm']
      show (if b' = [] then
          delT (set m.sorted_spends item.fee_per_cost b') item.fee_per_cost
        else set m.sorted_spends item.fee_per_cost b') = set m.sorted_spends item.fee_per_cost b'
      rw [if_neg hlen]
    constructor
    · rw [hsorted]
      exact hndset
    · intro q hq
      rw [hsorted] at hq
      rcases mem_set hq with h1 | h1
      · rw [h1]
        exact hlen
      · exact hne q h1

theorem buckets_wf_insert {m1 : Mempool} {item : MempoolItem}
    {adds removals_keys : List Nat} (hw : buckets_wf m1) :
    buckets_wf (insert_into_pool m1 item adds removals_keys) := by
  obtain ⟨hnd, hne⟩ := hw
  have hmain : ∀ bucket,
      (keys (set m1.sorted_spends item.fee_per_cost (set bucket item.name item))).Nodup ∧
      ∀ q ∈ set m1.sorted_spends item.fee_per_cost (set bucket item.name item),
        (q.2 : Dict MempoolItem) ≠ [] := by
    intro bucket
    refine ⟨nodup_keys_set hnd, ?_⟩
    intro q hq
    rcases mem_set hq with h1 | h1
    · rw [h1]
      exact set_ne_nil
    · exact hne q h1
  constructor
  · show (keys (insert_into_pool m1 item adds removals_keys).sorted_spends).Nodup
    simp only [insert_into_pool]
    cases hg : get? m1.sorted_spends item.fee_per_cost with
    | none => exact (hmain []).1
    | some bucket => exact (hmain bucket).1
  · show no_empty_buckets (insert_into_pool m1 item adds removals_keys)
    intro q hq
    simp only [insert_into_pool] at hq
    cases hg : get? m1.sorted_spends item.fee_per_cost with
    | none =>
      rw [hg] at hq
      exact (hmain []).2 q hq
    | some bucket =>
      rw [hg] at hq
      exact (hmain bucket).2 q hq

theorem buckets_wf_add {m m' : Mempool} {item : MempoolItem}
    {adds removals_keys : List Nat} (hw : buckets_wf m)
    (h : add_to_pool m item adds removals_keys = some m') : buckets_wf m' := by
  obtain ⟨m1, hcase, hm'⟩ := add_to_pool_inversion h
  have hw1 : buckets_wf m1 := by
    rcases hcase with ⟨_, rfl⟩ | ⟨_, fv, tr, _, _, hrm⟩
    · exact hw
    · exact buckets_wf_remove hw hrm
  rw [hm']
  exact buckets_wf_insert hw1

/-- Every state reachable by completed calls, with no precondition at all, has
well-formed fee buckets: in particular `sorted_spends` holds no empty bucket. -/
theorem reachable_buckets_wf {m : Mempool} (h : Reachable m) : buckets_wf m := by
  induction h with
  | created size =>
    exact ⟨by simp [create, keys_nil], fun q hq => by simp [create] at hq⟩
  | added hr hstep ih => exact buckets_wf_add ih hstep
  | removed hr hstep ih => exact buckets_wf_remove ih hstep

theorem size_remove {m m' : Mempool} {item : MempoolItem}
    (h : remove_spend m item = some m') : m'.size = m.size := by
  obtain ⟨R, A, S, b, b', _, _, _, _, _, hm'⟩ := remove_spend_inversion h
  rw [hm']

theorem length_remove {m m' : Mempool} {item : MempoolItem}
    (h : remove_spend m item = some m') : m'.spends.length + 1 = m.spends.length := by
  obtain ⟨R, A, S, b, b', _, _, hS, _, _, hm'⟩ := remove_spend_inversion h
  rw [hm']
  exact length_del? hS

theorem insert_length_le {m1 : Mempool} {item : MempoolItem}
    {adds removals_keys : List Nat} :
    (insert_into_pool m1 item adds removals_keys).spends.length ≤ m1.spends.length + 1 :=
  length_set_le

theorem insert_size {m1 : Mempool} {item : MempoolItem}
    {adds removals_keys : List Nat} :
    (insert_into_pool m1 item adds removals_keys).size = m1.size := rfl

/-- The capacity invariant, preserved by every completed call with no
precondition: one completed `add_to_pool` first shrinks a full pool by one. -/
theorem reachable_length_le_size {m : Mempool} (h : Reachable m) :
    m.spends.length ≤ m.size := by
  induction h with
  | created size => simp [create]
  | added hr hstep ih =>
    obtain ⟨m1, hcase, hm'⟩ := add_to_pool_inversion hstep
    rw [hm']
    refine le_trans insert_length_le ?_
    rw [insert_size]
    rcases hcase with ⟨hful, rfl⟩ | ⟨hful, fv, tr, _, _, hrm⟩
    · have hnot : ¬ m1.size ≤ m1.spends.length := by
        simpa [at_full_capacity] using hful
      omega
    · have hlen := length_remove hrm
      have hsz := size_remove hrm
      omega
  | removed hr hstep ih =>
    have hlen := length_remove hstep
    have hsz := size_remove hstep
    omega

/-- Complete characterization of `remove_spend` on an admitted entry of a
coherent pool: the call completes, removes exactly that entry from all four
indices (deleting its fee bucket when it empties), leaves every other entry
untouched, and preserves coherence. -/
theorem remove_spend_spec {m : Mempool} {item : MempoolItem}
    (hc : Coherent m) (hmem : get? m.spends item.name = some item) :
    ∃ m', remove_spend m item = some m' ∧
      (∀ n, get? m'.spends n = if n = item.name then none else get? m.spends n) ∧
      (∀ f, f ≠ item.fee_per_cost → get? m'.sorted_spends f = get? m.sorted_spends f) ∧
      (∃ b b', get? m.sorted_spends item.fee_per_cost = some b ∧
        del? b item.name = some b' ∧
        (∀ n, get? b' n = if n = item.name then none else get? b n) ∧
        get? m'.sorted_spends item.fee_per_cost = (if b' = [] then none else some b')) ∧
      (∀ c, get? m'.removals c = if c ∈ item.bundle_removals then none else get? m.removals c) ∧
      (∀ c, get? m'.additions c = if c ∈ item.bundle_additions then none else get? m.additions c) ∧
      m'.spends.length + 1 = m.spends.length ∧ m'.size = m.size ∧ m'.min_fee = m.min_fee ∧
      Coherent m' := by
  obtain ⟨hnds, hndo, hndb, hnda, hndr⟩ := hc.wf
  have hpair : (item.name, item) ∈ m.spends := mem_of_get? hmem
  have hitem_cm := hc.coins_mapped _ hpair
  have hitem_nd := hc.coins_nodup _ hpair
  obtain ⟨R, hR, hRnd, hRchar⟩ := delAll?_spec hitem_nd.1 hndr
    (fun c hcr => mem_keys_of_get? (hitem_cm.1 c hcr))
  obtain ⟨A, hA, hAnd, hAchar⟩ := delAll?_spec hitem_nd.2 hnda
    (fun c hca => mem_keys_of_get? (hitem_cm.2 c hca))
  obtain ⟨S, hS⟩ := del?_isSome_of_mem (mem_keys_of_get? hmem)
  have hSchar := get?_del? hnds hS
  have hSnd : (keys S).Nodup := nodup_keys_del? hnds hS
  have hbg := hc.in_bucket _ hpair
  rcases hb : get? m.sorted_spends item.fee_per_cost with _ | b
  · rw [bucket_get_eq_none hb] at hbg
    exact absurd hbg (by simp)
  rw [bucket_get_eq hb] at hbg
  have hbmem : (item.fee_per_cost, b) ∈ m.sorted_spends := mem_of_get? hb
  have hbnd : (keys b).Nodup := hndb _ hbmem
  obtain ⟨b', hb'⟩ := del?_isSome_of_mem (mem_keys_of_get? hbg)
  have hb'char := get?_del? hbnd hb'
  have hb'nd : (keys b').Nodup := nodup_keys_del? hbnd hb'
  -- facts about the surviving by-id index
  have hSmem : ∀ p ∈ S, p ∈ m.spends ∧ p.1 ≠ item.name ∧ get? m.spends p.1 = some p.2 := by
    intro p hp
    have hmem' : p ∈ m.spends := mem_del? hS hp
    have hg : get? S p.1 = some p.2 := get?_of_mem hSnd hp
    rw [hSchar p.1] at hg
    by_cases h1 : p.1 = item.name
    · rw [if_pos h1] at hg
      exact absurd hg (by simp)
    · rw [if_neg h1] at hg
      exact ⟨hmem', h1, hg⟩
  -- the new fee-rate index and its characterization
  have hnd2 : (keys (if b'.length = 0 then
      delT (set m.sorted_spends item.fee_per_cost b') item.fee_per_cost
    else set m.sorted_spends item.fee_per_cost b')).Nodup := by
    by_cases hbe : b'.length = 0
    · rw [if_pos hbe]
      obtain ⟨d2, hd2⟩ := del?_isSome_of_mem
        (mem_keys_set.2 (Or.inl rfl) :
          item.fee_per_cost ∈ keys (set m.sorted_spends item.fee_per_cost b'))
      rw [delT_of_del? hd2]
      exact nodup_keys_del? (nodup_keys_set hndo) hd2
    · rw [if_neg hbe]
      exact nodup_keys_set hndo
  have hchar2 : ∀ f, get? (if b'.length = 0 then
      delT (set m.sorted_spends item.fee_per_cost b') item.fee_per_cost
    else set m.sorted_spends item.fee_per_cost b') f =
      if f = item.fee_per_cost then (if b' = [] then none else some b')
      else get? m.sorted_spends f := by
    intro f
    by_cases hbe : b'.length = 0
    · have hbnil : b' = [] := List.length_eq_zero.1 hbe
      rw [if_pos hbe]
      obtain ⟨d2, hd2⟩ := del?_isSome_of_mem
        (mem_keys_set.2 (Or.inl rfl) :
          item.fee_per_cost ∈ keys (set m.sorted_spends item.fee_per_cost b'))
      rw [delT_of_del? hd2, get?_del? (nodup_keys_set hndo) hd2 f]
      by_cases hf : f = item.fee_per_cost
      · rw [if_pos hf, if_pos hf, if_pos hbnil]
      · rw [if_neg hf, if_neg hf, get?_set_ne hf]
    · have hbnil : b' ≠ [] := fun h0 => hbe (by simp [h0])
      rw [if_neg hbe]
      by_cases hf : f = item.fee_per_cost
      · rw [hf, get?_set_self, if_pos rfl, if_neg hbnil]
      · rw [get?_set_ne hf, if_neg hf]
  refine ⟨{ m with
              spends := S,
              sorted_spends := if b'.length = 0 then
                  delT (set m.sorted_spends item.fee_per_cost b') item.fee_per_cost
                else set m.sorted_spends item.fee_per_cost b',
              additions := A,
              removals := R },
    ?_, hSchar, ?_, ?_, hRchar, hAchar, length_del? hS, rfl, rfl, ?_⟩
  · -- the run of remove_spend itself
    simp [remove_spend, hR, hA, hS, hb, hb']
  · -- fee buckets other than the entry's own one are untouched
    intro f hf
    rw [hchar2 f, if_neg hf]
  · -- the entry's own bucket shrinks by the entry, disappearing if empty
    exact ⟨b, b', rfl, hb', hb'char, by rw [hchar2 item.fee_per_cost, if_pos rfl]⟩
  · -- coherence of the result
    -- membership in the new sorted index gives a genuine old bucket
    have hmem2 : ∀ q : Nat × Dict MempoolItem,
        q ∈ (if b'.length = 0 then
          delT (set m.sorted_spends item.fee_per_cost b') item.fee_per_cost
        else set m.sorted_spends item.fee_per_cost b') →
        (q.1 = item.fee_per_cost ∧ b' ≠ [] ∧ q.2 = b') ∨
        (q.1 ≠ item.fee_per_cost ∧ q ∈ m.sorted_spends) := by
      intro q hq
      have hg : get? (if b'.length = 0 then
          delT (set m.sorted_spends item.fee_per_cost b') item.fee_per_cost
        else set m.sorted_spends item.fee_per_cost b') q.1 = some q.2 :=
        get?_of_mem hnd2 (by exact hq)
      rw [hchar2 q.1] at hg
      by_cases hf : q.1 = item.fee_per_cost
      · rw [if_pos hf] at hg
        by_cases hbe : b' = []
        · rw [if_pos hbe] at hg
          exact absurd hg (by simp)
        · rw [if_neg hbe] at hg
          exact Or.inl ⟨hf, hbe, by injection hg.symm⟩
      · rw [if_neg hf] at hg
        exact Or.inr ⟨hf, mem_of_get? hg⟩
    -- bucket members with a fee different from the entry's are not the entry
    have hother : ∀ (q : Nat × Dict MempoolItem), q ∈ m.sorted_spends →
        q.1 ≠ item.fee_per_cost → ∀ r ∈ (q.2 : Dict MempoolItem), r.1 ≠ item.name := by
      intro q hq hqf r hr hname
      have hro := (hc.buckets_ok q hq).2 r hr
      have : r.2 = item := by
        have := hro.1
        rw [hname, hmem] at this
        injection this.symm
      exact hqf (by rw [← hro.2.1, this])
    refine ⟨⟨hSnd, hnd2, ?_, hAnd, hRnd⟩, ?_, ?_, ?_, ?_, ?_, ?_, ?_, ?_⟩
    · -- buckets keep distinct keys
      intro q hq
      rcases hmem2 q hq with ⟨_, _, hq2⟩ | ⟨_, hq2⟩
      · rw [hq2]
        exact hb'nd
      · exact hndb q hq2
    · -- names match keys
      intro p hp
      exact hc.name_eq p (hSmem p hp).1
    · -- every surviving entry is in its own bucket
      intro p hp
      obtain ⟨hpm, hpname, _⟩ := hSmem p hp
      have hold := hc.in_bucket p hpm
      by_cases hf : (p.2 : MempoolItem).fee_per_cost = item.fee_per_cost
      · rw [hf] at hold ⊢
        rw [bucket_get_eq hb] at hold
        have hget' : get? b' p.1 = some p.2 := by
          rw [hb'char p.1, if_neg hpname]
          exact hold
        have hbne : b' ≠ [] := by
          intro h0
          rw [h0] at hget'
          exact absurd hget' (by simp [get?])
        have : get? (if b'.length = 0 then
            delT (set m.sorted_spends item.fee_per_cost b') item.fee_per_cost
          else set m.sorted_spends item.fee_per_cost b') item.fee_per_cost = some b' := by
          rw [hchar2, if_pos rfl, if_neg hbne]
        rw [bucket_get_eq this]
        exact hget'
      · rcases hbp : get? m.sorted_spends (p.2 : MempoolItem).fee_per_cost with _ | bp
        · rw [bucket_get_eq_none hbp] at hold
          exact absurd hold (by simp)
        · rw [bucket_get_eq hbp] at hold
          have : get? (if b'.length = 0 then
              delT (set m.sorted_spends item.fee_per_cost b') item.fee_per_cost
            else set m.sorted_spends item.fee_per_cost b')
              (p.2 : MempoolItem).fee_per_cost = some bp := by
            rw [hchar2, if_neg hf]
            exact hbp
          rw [bucket_get_eq this]
          exact hold
    · -- and in no other bucket
      intro p hp q hq hqf
      obtain ⟨hpm, hpname, _⟩ := hSmem p hp
      rcases hmem2 q hq with ⟨hqfee, _, hq2⟩ | ⟨_, hq2⟩
      · rw [hq2, hb'char p.1, if_neg hpname]
        exact hc.not_in_other p hpm (item.fee_per_cost, b) hbmem (by rw [← hqfee]; exact hqf)
      · exact hc.not_in_other p hpm q hq2 hqf
    · -- buckets hold exactly surviving entries at their exact rate
      intro q hq
      rcases hmem2 q hq with ⟨hqfee, hbne, hq2⟩ | ⟨hqf, hq2⟩
      · constructor
        · rw [hq2]
          exact hbne
        · intro r hr
          rw [hq2] at hr
          have hgr : get? b' r.1 = some r.2 := get?_of_mem hb'nd hr
          rw [hb'char r.1] at hgr
          by_cases h1 : r.1 = item.name
          · rw [if_pos h1] at hgr
            exact absurd hgr (by simp)
          · rw [if_neg h1] at hgr
            have hro := (hc.buckets_ok _ hbmem).2 r (mem_of_get? hgr)
            have hrS : get? S r.1 = some r.2 := by
              rw [hSchar r.1, if_neg h1]
              exact hro.1
            exact ⟨hrS, by rw [hro.2.1, hqfee], hro.2.2⟩
      · have hold := hc.buckets_ok q hq2
        refine ⟨hold.1, ?_⟩
        intro r hr
        have hro := hold.2 r hr
        have h1 : r.1 ≠ item.name := hother q hq2 hqf r hr
        have hrS : get? S r.1 = some r.2 := by
          rw [hSchar r.1, if_neg h1]
          exact hro.1
        exact ⟨hrS, hro.2.1, hro.2.2⟩
    · -- the consumed-coin map still points at admitted owners
      intro p hp
      have hgp : get? R p.1 = some p.2 := get?_of_mem hRnd hp
      rw [hRchar p.1] at hgp
      by_cases h1 : p.1 ∈ item.bundle_removals
      · rw [if_pos h1] at hgp
        exact absurd hgp (by simp)
      · rw [if_neg h1] at hgp
        have hold := hc.removals_ok _ (mem_of_get? hgp)
        have hpname : (p.2 : MempoolItem).name ≠ item.name := by
          intro heq
          have : p.2 = item := by
            have := hold.1
            rw [heq, hmem] at this
            injection this.symm
          exact h1 (this ▸ hold.2)
        refine ⟨?_, hold.2⟩
        rw [hSchar, if_neg hpname]
        exact hold.1
    · -- the produced-coin map still points at admitted owners
      intro p hp
      have hgp : get? A p.1 = some p.2 := get?_of_mem hAnd hp
      rw [hAchar p.1] at hgp
      by_cases h1 : p.1 ∈ item.bundle_additions
      · rw [if_pos h1] at hgp
        exact absurd hgp (by simp)
      · rw [if_neg h1] at hgp
        have hold := hc.additions_ok _ (mem_of_get? hgp)
        have hpname : (p.2 : MempoolItem).name ≠ item.name := by
          intro heq
          have : p.2 = item := by
            have := hold.1
            rw [heq, hmem] at this
            injection this.symm
          exact h1 (this ▸ hold.2)
        refine ⟨?_, hold.2⟩
        rw [hSchar, if_neg hpname]
        exact hold.1
    · -- every surviving entry's coins stay registered to it
      intro p hp
      obtain ⟨hpm, hpname, _⟩ := hSmem p hp
      have hold := hc.coins_mapped p hpm
      have hpne : p.2 ≠ item := by
        intro heq
        exact hpname (by rw [← hc.name_eq p hpm, heq])
      constructor
      · intro c hcp
        have hci : c ∉ item.bundle_removals := by
          intro hci
          have h1 := hitem_cm.1 c hci
          have h2 := hold.1 c hcp
          rw [h1] at h2
          refine hpne ?_
          injection h2 with hv
          exact hv.symm
        rw [hRchar c, if_neg hci]
        exact hold.1 c hcp
      · intro c hcp
        have hci : c ∉ item.bundle_additions := by
          intro hci
          have h1 := hitem_cm.2 c hci
          have h2 := hold.2 c hcp
          rw [h1] at h2
          refine hpne ?_
          injection h2 with hv
          exact hv.symm
        rw [hAchar c, if_neg hci]
        exact hold.2 c hcp
    · -- coin lists of surviving entries are unchanged, hence duplicate-free
      intro p hp
      exact hc.coins_nodup p (hSmem p hp).1

/-- The empty pool is coherent, whatever its capacity. -/
theorem coherent_create (size : Nat) : Coherent (create size) := by
  constructor <;> simp [create, WF, keys_nil]

/-- On a coherent pool with at least one admitted entry, `sorted_spends` is
nonempty and the eviction branch finds a victim: the first-inserted member of
the minimum-fee bucket, an admitted entry of minimal fee rate. -/
theorem eviction_victim {m : Mempool} (hc : Coherent m) (hne : m.spends ≠ []) :
    ∃ fv r, peekMin? m.sorted_spends = some fv ∧
      (fv.2 : Dict MempoolItem).head? = some r ∧
      get? m.spends ((r : Nat × MempoolItem).2).name = some r.2 ∧
      ((r : Nat × MempoolItem).2).fee_per_cost = fv.1 ∧
      ∀ p ∈ m.spends, ((r : Nat × MempoolItem).2).fee_per_cost ≤ (p.2 : MempoolItem).fee_per_cost := by
  have hsone : m.sorted_spends ≠ [] := by
    rcases hsp : m.spends with _ | ⟨p0, rest⟩
    · exact absurd hsp hne
    have hp0 : p0 ∈ m.spends := by
      rw [hsp]
      exact List.mem_cons_self p0 rest
    have hbg := hc.in_bucket p0 hp0
    intro hnil
    rcases hg : get? m.sorted_spends (p0.2 : MempoolItem).fee_per_cost with _ | bb
    · rw [bucket_get_eq_none hg] at hbg
      exact absurd hbg (by simp)
    · rw [hnil, get?_nil] at hg
      exact absurd hg (by simp)
  obtain ⟨k, v, hpeek, hgkv, hkmin⟩ := peekMin?_spec hsone
  have hkv : (k, v) ∈ m.sorted_spends := mem_of_get? hgkv
  obtain ⟨hvne, hmembers⟩ := hc.buckets_ok _ hkv
  rcases hv : v with _ | ⟨r, vrest⟩
  · exact absurd hv hvne
  have hrmem : r ∈ v := by
    rw [hv]
    exact List.mem_cons_self r vrest
  obtain ⟨hradm, hrfee, hrname⟩ := hmembers r hrmem
  refine ⟨(k, v), r, hpeek, by rw [hv]; rfl, by rw [hrname]; exact hradm, hrfee, ?_⟩
  intro p hp
  have hbg := hc.in_bucket p hp
  rcases hg : get? m.sorted_spends (p.2 : MempoolItem).fee_per_cost with _ | bb
  · rw [bucket_get_eq_none hg] at hbg
    exact absurd hbg (by simp)
  · have : k ≤ (p.2 : MempoolItem).fee_per_cost := hkmin _ (mem_keys_of_get? hg)
    rw [hrfee]
    exact this

/-- Inserting a fresh, conflict-free entry (its own coin lists passed as the
`additions`/`removals_dic` arguments) into a coherent pool: the by-id index
gains exactly that entry and the result is coherent. -/
theorem insert_into_pool_spec {m1 : Mempool} {item : MempoolItem}
    (hc : Coherent m1) (hfresh : get? m1.spends item.name = none)
    (hnr : item.bundle_removals.Nodup) (hna : item.bundle_additions.Nodup)
    (hdisj : ∀ p ∈ m1.spends,
      (∀ c ∈ (p.2 : MempoolItem).bundle_removals, c ∉ item.bundle_removals) ∧
      (∀ c ∈ (p.2 : MempoolItem).bundle_additions, c ∉ item.bundle_additions)) :
    (∀ n, get? (insert_into_pool m1 item item.bundle_additions item.bundle_removals).spends n =
      if n = item.name then some item else get? m1.spends n) ∧
    Coherent (insert_into_pool m1 item item.bundle_additions item.bundle_removals) := by
  obtain ⟨hnds, hndo, hndb, hnda, hndr⟩ := hc.wf
  have holdne : ∀ p ∈ m1.spends, (p : Nat × MempoolItem).1 ≠ item.name := by
    intro p hp h1
    have hg : get? m1.spends p.1 = some p.2 := get?_of_mem hnds hp
    rw [h1, hfresh] at hg
    exact absurd hg (by simp)
  have hSchar : ∀ n, get? (set m1.spends item.name item) n =
      if n = item.name then some item else get? m1.spends n := by
    intro n
    by_cases h1 : n = item.name
    · rw [if_pos h1, h1, get?_set_self]
    · rw [if_neg h1, get?_set_ne h1]
  have hB0nd : (keys ((get? m1.sorted_spends item.fee_per_cost).getD [])).Nodup := by
    rcases hg : get? m1.sorted_spends item.fee_per_cost with _ | bucket
    · simp [keys_nil]
    · simpa using hndb _ (mem_of_get? hg)
  have hB0mem : ∀ r ∈ (get? m1.sorted_spends item.fee_per_cost).getD [],
      get? m1.spends r.1 = some r.2 ∧
      (r.2 : MempoolItem).fee_per_cost = item.fee_per_cost ∧
      (r.2 : MempoolItem).name = r.1 := by
    rcases hg : get? m1.sorted_spends item.fee_per_cost with _ | bucket
    · simp
    · intro r hr
      exact (hc.buckets_ok _ (mem_of_get? hg)).2 r (by simpa using hr)
  have hB0old : ∀ p ∈ m1.spends, (p.2 : MempoolItem).fee_per_cost = item.fee_per_cost →
      get? ((get? m1.sorted_spends item.fee_per_cost).getD []) p.1 = some p.2 := by
    intro p hp hf
    have hbg := hc.in_bucket p hp
    rw [hf] at hbg
    rcases hg : get? m1.sorted_spends item.fee_per_cost with _ | bucket
    · rw [bucket_get_eq_none hg] at hbg
      exact absurd hbg (by simp)
    · rw [bucket_get_eq hg] at hbg
      simpa using hbg
  have hfreshR : ∀ c ∈ item.bundle_removals, get? m1.removals c = none := by
    intro c hcr
    rcases hx : get? m1.removals c with _ | x
    · rfl
    · obtain ⟨hxadm, hxc⟩ := hc.removals_ok _ (mem_of_get? hx)
      exact absurd hcr ((hdisj _ (mem_of_get? hxadm)).1 c hxc)
  have hfreshA : ∀ c ∈ item.bundle_additions, get? m1.additions c = none := by
    intro c hca
    rcases hx : get? m1.additions c with _ | x
    · rfl
    · obtain ⟨hxadm, hxc⟩ := hc.additions_ok _ (mem_of_get? hx)
      exact absurd hca ((hdisj _ (mem_of_get? hxadm)).2 c hxc)
  have hNeq : insert_into_pool m1 item item.bundle_additions item.bundle_removals =
      { m1 with
          spends := set m1.spends item.name item,
          sorted_spends := set m1.sorted_spends item.fee_per_cost
            (set ((get? m1.sorted_spends item.fee_per_cost).getD []) item.name item),
          additions := setAll m1.additions item.bundle_additions item,
          removals := setAll m1.removals item.bundle_removals item } := by
    rcases hg : get? m1.sorted_spends item.fee_per_cost with _ | bucket <;>
      simp [insert_into_pool, hg]
  have hchar : ∀ f, get? (set m1.sorted_spends item.fee_per_cost
      (set ((get? m1.sorted_spends item.fee_per_cost).getD []) item.name item)) f =
      if f = item.fee_per_cost then
        some (set ((get? m1.sorted_spends item.fee_per_cost).getD []) item.name item)
      else get? m1.sorted_spends f := by
    intro f
    by_cases hf : f = item.fee_per_cost
    · rw [if_pos hf, hf, get?_set_self]
    · rw [if_neg hf, get?_set_ne hf]
  have hmem2 : ∀ q : Nat × Dict MempoolItem,
      q ∈ set m1.sorted_spends item.fee_per_cost
        (set ((get? m1.sorted_spends item.fee_per_cost).getD []) item.name item) →
      (q.1 = item.fee_per_cost ∧
        q.2 = set ((get? m1.sorted_spends item.fee_per_cost).getD []) item.name item) ∨
      (q.1 ≠ item.fee_per_cost ∧ q ∈ m1.sorted_spends) := by
    intro q hq
    have hg : get? (set m1.sorted_spends item.fee_per_cost
        (set ((get? m1.sorted_spends item.fee_per_cost).getD []) item.name item)) q.1 =
        some q.2 := get?_of_mem (nodup_keys_set hndo) hq
    rw [hchar q.1] at hg
    by_cases hf : q.1 = item.fee_per_cost
    · rw [if_pos hf] at hg
      exact Or.inl ⟨hf, by injection hg.symm⟩
    · rw [if_neg hf] at hg
      exact Or.inr ⟨hf, mem_of_get? hg⟩
  rw [hNeq]
  refine ⟨hSchar, ⟨nodup_keys_set hnds, nodup_keys_set hndo, ?_,
    nodup_keys_setAll hnda, nodup_keys_setAll hndr⟩, ?_, ?_, ?_, ?_, ?_, ?_, ?_, ?_⟩
  · -- buckets keep distinct keys
    intro q hq
    rcases hmem2 q hq with ⟨_, hq2⟩ | ⟨_, hq2⟩
    · rw [hq2]
      exact nodup_keys_set hB0nd
    · exact hndb q hq2
  · -- names match keys
    intro p hp
    rcases mem_set hp with h1 | h1
    · rw [h1]
    · exact hc.name_eq p h1
  · -- every entry is in its own fee bucket
    intro p hp
    have hgfee : get? (set m1.sorted_spends item.fee_per_cost
        (set ((get? m1.sorted_spends item.fee_per_cost).getD []) item.name item))
        item.fee_per_cost =
        some (set ((get? m1.sorted_spends item.fee_per_cost).getD []) item.name item) :=
      get?_set_self
    rcases mem_set hp with h1 | h1
    · rw [h1]
      show bucket_get _ item.fee_per_cost item.name = some item
      rw [bucket_get_eq hgfee]
      exact get?_set_self
    · have hne1 := holdne p h1
      by_cases hf : (p.2 : MempoolItem).fee_per_cost = item.fee_per_cost
      · show bucket_get _ (p.2 : MempoolItem).fee_per_cost p.1 = some p.2
        rw [hf, bucket_get_eq hgfee, get?_set_ne hne1]
        exact hB0old p h1 hf
      · have hold := hc.in_bucket p h1
        rcases hg : get? m1.sorted_spends (p.2 : MempoolItem).fee_per_cost with _ | bb
        · rw [bucket_get_eq_none hg] at hold
          exact absurd hold (by simp)
        · rw [bucket_get_eq hg] at hold
          have hgf2 : get? (set m1.sorted_spends item.fee_per_cost
              (set ((get? m1.sorted_spends item.fee_per_cost).getD []) item.name item))
              (p.2 : MempoolItem).fee_per_cost = some bb := by
            rw [get?_set_ne hf]
            exact hg
          show bucket_get _ (p.2 : MempoolItem).fee_per_cost p.1 = some p.2
          rw [bucket_get_eq hgf2]
          exact hold
  · -- and in no other bucket
    intro p hp q hq hqf
    rcases mem_set hp with h1 | h1
    · rw [h1] at hqf ⊢
      rcases hmem2 q hq with ⟨hq1, _⟩ | ⟨_, hq2⟩
      · exact absurd hq1 hqf
      · show get? (q.2 : Dict MempoolItem) item.name = none
        rcases hx : get? (q.2 : Dict MempoolItem) item.name with _ | x
        · rfl
        · have := ((hc.buckets_ok q hq2).2 _ (mem_of_get? hx)).1
          rw [hfresh] at this
          exact absurd this (by simp)
    · have hne1 := holdne p h1
      rcases hmem2 q hq with ⟨hq1, hq2⟩ | ⟨_, hq2⟩
      · rw [hq2]
        show get? (set ((get? m1.sorted_spends item.fee_per_cost).getD []) item.name item)
          p.1 = none
        rw [get?_set_ne hne1]
        rcases hg : get? m1.sorted_spends item.fee_per_cost with _ | bucket
        · exact get?_nil
        · have hfee_ne : item.fee_per_cost ≠ (p.2 : MempoolItem).fee_per_cost := by
            rw [← hq1]
            exact hqf
          have := hc.not_in_other p h1 (item.fee_per_cost, bucket) (mem_of_get? hg) hfee_ne
          simpa using this
      · exact hc.not_in_other p h1 q hq2 hqf
  · -- buckets hold exactly admitted entries at their exact rate
    intro q hq
    rcases hmem2 q hq with ⟨hq1, hq2⟩ | ⟨hq1, hq2⟩
    · constructor
      · rw [hq2]
        exact set_ne_nil
      · intro r hr
        rw [hq2] at hr
        rcases mem_set hr with h2 | h2
        · rw [h2]
          refine ⟨?_, hq1 ▸ rfl, rfl⟩
          show get? (set m1.spends item.name item) item.name = some item
          exact get?_set_self
        · obtain ⟨hradm, hrfee, hrname⟩ := hB0mem r h2
          have hne1 : r.1 ≠ item.name := holdne _ (mem_of_get? hradm)
          refine ⟨?_, by rw [hrfee, hq1], hrname⟩
          rw [hSchar r.1, if_neg hne1]
          exact hradm
    · obtain ⟨hne0, hmembers⟩ := hc.buckets_ok q hq2
      refine ⟨hne0, ?_⟩
      intro r hr
      obtain ⟨hradm, hrfee, hrname⟩ := hmembers r hr
      have hne1 : r.1 ≠ item.name := holdne _ (mem_of_get? hradm)
      refine ⟨?_, hrfee, hrname⟩
      rw [hSchar r.1, if_neg hne1]
      exact hradm
  · -- the consumed-coin map points at admitted owners
    intro p hp
    rcases mem_setAll hp with ⟨h1, h2⟩ | h1
    · rw [h2]
      refine ⟨?_, h1⟩
      show get? (set m1.spends item.name item) item.name = some item
      exact get?_set_self
    · obtain ⟨hadm, hcoin⟩ := hc.removals_ok p h1
      have hne1 : (p.2 : MempoolItem).name ≠ item.name :=
        holdne _ (mem_of_get? hadm)
      refine ⟨?_, hcoin⟩
      rw [hSchar, if_neg hne1]
      exact hadm
  · -- the produced-coin map points at admitted owners
    intro p hp
    rcases mem_setAll hp with ⟨h1, h2⟩ | h1
    · rw [h2]
      refine ⟨?_, h1⟩
      show get? (set m1.spends item.name item) item.name = some item
      exact get?_set_self
    · obtain ⟨hadm, hcoin⟩ := hc.additions_ok p h1
      have hne1 : (p.2 : MempoolItem).name ≠ item.name :=
        holdne _ (mem_of_get? hadm)
      refine ⟨?_, hcoin⟩
      rw [hSchar, if_neg hne1]
      exact hadm
  · -- every admitted entry's coins map back to it
    intro p hp
    rcases mem_set hp with h1 | h1
    · rw [h1]
      constructor
      · intro c hcc
        show get? (setAll m1.removals item.bundle_removals item) c = some item
        rw [get?_setAll c, if_pos hcc]
      · intro c hcc
        show get? (setAll m1.additions item.bundle_additions item) c = some item
        rw [get?_setAll c, if_pos hcc]
    · obtain ⟨hcm1, hcm2⟩ := hc.coins_mapped p h1
      constructor
      · intro c hcc
        have hnc : c ∉ item.bundle_removals := (hdisj p h1).1 c hcc
        show get? (setAll m1.removals item.bundle_removals item) c = some p.2
        rw [get?_setAll c, if_neg hnc]
        exact hcm1 c hcc
      · intro c hcc
        have hnc : c ∉ item.bundle_additions := (hdisj p h1).2 c hcc
        show get? (setAll m1.additions item.bundle_additions item) c = some p.2
        rw [get?_setAll c, if_neg hnc]
        exact hcm2 c hcc
  · -- coin lists stay duplicate-free
    intro p hp
    rcases mem_set hp with h1 | h1
    · rw [h1]
      exact ⟨hnr, hna⟩
    · exact hc.coins_nodup p h1

/-- Index coherence is an invariant of every precondition-respecting,
conflict-free sequence of calls. -/
theorem reachableOK_coherent {m : Mempool} (h : ReachableOK m) : Coherent m := by
  induction h with
  | created size => exact coherent_create size
  | @added m0 m' item hr hfresh hnr hna hdisj hstep ih =>
    obtain ⟨m1, hcase, hm'⟩ := add_to_pool_inversion hstep
    rcases hcase with ⟨_, rfl⟩ | ⟨_, fv, tr, hfv, hhd, hrm⟩
    · rw [hm']
      exact (insert_into_pool_spec ih hfresh hnr hna hdisj).2
    · -- the eviction victim is an admitted entry
      have hfvmem : (fv.1, fv.2) ∈ m0.sorted_spends := mem_of_get? (peekMin?_inv hfv)
      rcases hfv2 : (fv.2 : Dict MempoolItem) with _ | ⟨r, rest⟩
      · rw [hfv2] at hhd
        simp at hhd
      rw [hfv2] at hhd
      simp at hhd
      have hrmem : r ∈ (fv.2 : Dict MempoolItem) := by
        rw [hfv2]
        exact List.mem_cons_self r rest
      obtain ⟨hradm, _, hrname⟩ := (ih.buckets_ok _ hfvmem).2 r hrmem
      have htradm : get? m0.spends tr.name = some tr := by
        rw [← hhd, hrname]
        exact hradm
      obtain ⟨m2, hrm2, hchar1, _, _, _, _, _, _, _, hcm2⟩ := remove_spend_spec ih htradm
      rw [hrm] at hrm2
      have h12 : m1 = m2 := by injection hrm2
      subst h12
      have hfresh1 : get? m1.spends item.name = none := by
        rw [hchar1 item.name]
        by_cases h1 : item.name = tr.name
        · rw [if_pos h1]
        · rw [if_neg h1]
          exact hfresh
      have hdisj1 : ∀ p ∈ m1.spends,
          (∀ c ∈ (p.2 : MempoolItem).bundle_removals, c ∉ item.bundle_removals) ∧
          (∀ c ∈ (p.2 : MempoolItem).bundle_additions, c ∉ item.bundle_additions) := by
        intro p hp
        have hg : get? m1.spends p.1 = some p.2 := get?_of_mem hcm2.wf.1 hp
        rw [hchar1 p.1] at hg
        by_cases h1 : p.1 = tr.name
        · rw [if_pos h1] at hg
          exact absurd hg (by simp)
        · rw [if_neg h1] at hg
          exact hdisj p (mem_of_get? hg)
      rw [hm']
      exact (insert_into_pool_spec hcm2 hfresh1 hnr hna hdisj1).2
  | @removed m0 m' item hr hmem hstep ih =>
    obtain ⟨m2, hrm2, _, _, _, _, _, _, _, _, hcm2⟩ := remove_spend_spec ih hmem
    rw [hstep] at hrm2
    have h12 : m' = m2 := by injection hrm2
    rw [h12]
    exact hcm2

/-! The claims. -/

/-- C1 (amended): for every state reachable from an empty pool by completed
`add_to_pool`/`remove_spend` calls that respect the preconditions — no
duplicate id, removal only of currently admitted entries, coin lists passed
to `add_to_pool` equal to the item's spend-bundle coin sets, and additionally
no coin shared between admitted entries (the caller resolves conflicts before
admission) — the four indices are fully coherent: every id in `spends` is in
exactly its own `sorted_spends` bucket and no other, every coin in
`removals`/`additions` maps to an admitted entry owning it, and every
admitted entry's coins map back to that entry. -/
theorem claim_C1 (m : Mempool) (h : ReachableOK m) : Coherent m :=
  reachableOK_coherent h

theorem claim_C1_witness : Coherent poolAB := by
  have h1 : add_to_pool (create 2) itemA itemA.bundle_additions itemA.bundle_removals =
      some poolA := by decide
  have h2 : add_to_pool poolA itemB itemB.bundle_additions itemB.bundle_removals =
      some poolAB := by decide
  exact claim_C1 poolAB (ReachableOK.added
    (ReachableOK.added (ReachableOK.created 2) (by decide) (by decide) (by decide)
      (by decide) h1)
    (by decide) (by decide) (by decide) (by decide) h2)

/-- C1 counterexample: under the preconditions exactly as the claim states
them (fresh ids, matching coin lists — but coin conflicts allowed, as the
pool "does not reject conflicts"), admitting two entries that consume the
same coin `100` reaches a state where entry 1 is admitted yet
`removals[100]` maps to entry 2, so the claimed bidirectional coherence
fails. -/
theorem claim_C1_cex :
    get? poolF1.spends itemE2.name = none ∧
    itemE2.bundle_removals.Nodup ∧ itemE2.bundle_additions.Nodup ∧
    add_to_pool poolF1 itemE2 itemE2.bundle_additions itemE2.bundle_removals = some poolF2 ∧
    get? poolF2.spends itemE1.name = some itemE1 ∧
    100 ∈ itemE1.bundle_removals ∧
    get? poolF2.removals 100 = some itemE2 ∧
    itemE2 ≠ itemE1 ∧
    ¬ Coherent poolF2 := by decide

/-- C2: after every completed `add_to_pool`/`remove_spend` call starting from
`create c` — with no precondition whatsoever on the calls — the number of
entries in `spends` is at most `c`. -/
theorem claim_C2 (m : Mempool) (h : Reachable m) : m.spends.length ≤ m.size :=
  reachable_length_le_size h

theorem claim_C2_witness : poolAB.spends.length ≤ poolAB.size := by
  have h1 : add_to_pool (create 2) itemA itemA.bundle_additions itemA.bundle_removals =
      some poolA := by decide
  have h2 : add_to_pool poolA itemB itemB.bundle_additions itemB.bundle_removals =
      some poolAB := by decide
  exact claim_C2 poolAB (Reachable.added (Reachable.added (Reachable.created 2) h1) h2)

/-- C3 (amended): on a coherent pool, `get_min_fee_rate` returns `0` whenever
the pool holds fewer entries than its capacity, and whenever the pool holds
exactly `capacity` entries and is nonempty it returns the minimum
`fee_per_cost` among admitted entries (the call is a pure function of the
state).  The amendment: when `capacity = 0` and the pool is empty the call
does not return a fee rate but raises (see the counterexample). -/
theorem claim_C3 (m : Mempool) (hc : Coherent m) :
    (m.spends.length < m.size → get_min_fee_rate m = some 0) ∧
    (m.spends.length = m.size → m.spends ≠ [] →
      ∃ f, get_min_fee_rate m = some f ∧
        (∃ p ∈ m.spends, (p.2 : MempoolItem).fee_per_cost = f) ∧
        (∀ p ∈ m.spends, f ≤ (p.2 : MempoolItem).fee_per_cost)) := by
  constructor
  · intro hlt
    have hful : m.at_full_capacity = false := by
      simp [at_full_capacity]
      omega
    simp [get_min_fee_rate, hful]
  · intro heq hne
    have hful : m.at_full_capacity = true := by
      simp [at_full_capacity]
      omega
    obtain ⟨fv, r, hpeek, hhd, hradm, hrfee, hmin⟩ := eviction_victim hc hne
    refine ⟨fv.1, ?_, ⟨((r.2 : MempoolItem).name, r.2), mem_of_get? hradm, hrfee⟩, ?_⟩
    · simp [get_min_fee_rate, hful, hpeek]
    · intro p hp
      rw [← hrfee]
      exact hmin p hp

theorem claim_C3_witness :
    Coherent poolAB ∧
    ((poolAB.spends.length < poolAB.size → get_min_fee_rate poolAB = some 0) ∧
     (poolAB.spends.length = poolAB.size → poolAB.spends ≠ [] →
       ∃ f, get_min_fee_rate poolAB = some f ∧
         (∃ p ∈ poolAB.spends, (p.2 : MempoolItem).fee_per_cost = f) ∧
         (∀ p ∈ poolAB.spends, f ≤ (p.2 : MempoolItem).fee_per_cost))) :=
  ⟨by decide, claim_C3 poolAB (by decide)⟩

/-- C3 counterexample: a pool of capacity 0 holds exactly `capacity` entries
(zero of them), yet `get_min_fee_rate` does not return any fee rate —
`peekitem(index=0)` on the empty `sorted_spends` raises. -/
theorem claim_C3_cex :
    (create 0).spends.length = (create 0).size ∧
    get_min_fee_rate (create 0) = none := by decide

/-- C4: on a coherent full pool (`capacity ≥ 1`, `|spends| ≥ capacity`) a
completed `add_to_pool` of a fresh entry removes exactly one previously
admitted entry — one whose fee rate is less than or equal to every admitted
entry's — leaves every other admitted entry in place, and admits the new
entry. -/
theorem claim_C4 (m : Mempool) (item : MempoolItem) (adds removals_keys : List Nat)
    (hc : Coherent m) (hcap : 1 ≤ m.size) (hfull : m.size ≤ m.spends.length)
    (hfresh : get? m.spends item.name = none) :
    ∃ m' victim, add_to_pool m item adds removals_keys = some m' ∧
      get? m.spends victim.name = some victim ∧
      get? m'.spends victim.name = none ∧
      victim.name ≠ item.name ∧
      (∀ p ∈ m.spends, victim.fee_per_cost ≤ (p.2 : MempoolItem).fee_per_cost) ∧
      get? m'.spends item.name = some item ∧
      (∀ n, n ≠ victim.name → n ≠ item.name → get? m'.spends n = get? m.spends n) := by
  have hne : m.spends ≠ [] := by
    intro h0
    rw [h0] at hfull
    simp at hfull
    omega
  obtain ⟨fv, r, hpeek, hhd, hradm, hrfee, hmin⟩ := eviction_victim hc hne
  obtain ⟨m1, hrm, hchar1, _, _, _, _, _, _, _, hcm1⟩ := remove_spend_spec hc hradm
  have hful : m.at_full_capacity = true := by
    simp [at_full_capacity]
    exact hfull
  have hrun : add_to_pool m item adds removals_keys =
      some (insert_into_pool m1 item adds removals_keys) := by
    simp [add_to_pool, hful, hpeek, List.head?_map, hhd, hrm]
  have hvne : ((r : Nat × MempoolItem).2).name ≠ item.name := by
    intro h0
    rw [h0, hfresh] at hradm
    exact absurd hradm (by simp)
  refine ⟨insert_into_pool m1 item adds removals_keys, r.2, hrun, hradm, ?_, hvne,
    hmin, ?_, ?_⟩
  · show get? (set m1.spends item.name item) ((r : Nat × MempoolItem).2).name = none
    rw [get?_set_ne hvne, hchar1, if_pos rfl]
  · show get? (set m1.spends item.name item) item.name = some item
    exact get?_set_self
  · intro n hnv hni
    show get? (set m1.spends item.name item) n = get? m.spends n
    rw [get?_set_ne hni, hchar1, if_neg hnv]

theorem claim_C4_witness :
    Coherent poolAB ∧ 1 ≤ poolAB.size ∧ poolAB.size ≤ poolAB.spends.length ∧
    get? poolAB.spends itemC.name = none ∧
    (∃ m' victim,
      add_to_pool poolAB itemC itemC.bundle_additions itemC.bundle_removals = some m' ∧
      get? poolAB.spends victim.name = some victim ∧
      get? m'.spends victim.name = none ∧
      victim.name ≠ itemC.name ∧
      (∀ p ∈ poolAB.spends, victim.fee_per_cost ≤ (p.2 : MempoolItem).fee_per_cost) ∧
      get? m'.spends itemC.name = some itemC ∧
      (∀ n, n ≠ victim.name → n ≠ itemC.name → get? m'.spends n = get? poolAB.spends n)) :=
  ⟨by decide, by decide, by decide, by decide,
    claim_C4 poolAB itemC itemC.bundle_additions itemC.bundle_removals
      (by decide) (by decide) (by decide) (by decide)⟩

/-- C5 (amended): a pool of capacity 0 is degenerate in the opposite way the
claim states — `add_to_pool` on the empty capacity-0 pool always fails
(`at_full_capacity` is true and `peekitem(index=0)` raises on the empty
`sorted_spends`), so nothing is ever inserted or evicted. -/
theorem claim_C5 (item : MempoolItem) (adds removals_keys : List Nat) :
    add_to_pool (create 0) item adds removals_keys = none := rfl

/-- C5 counterexample: the very first `add_to_pool` into an empty capacity-0
pool reaches the error branch instead of completing. -/
theorem claim_C5_cex :
    at_full_capacity (create 0) = true ∧
    add_to_pool (create 0) itemA itemA.bundle_additions itemA.bundle_removals = none := by
  decide

/-- C6 (amended): `remove_spend` on an entry whose id is not admitted fails
loudly (a `KeyError`, modelled by `none`); but `add_to_pool` with a duplicate
id does not fail — it silently overwrites `spends` and corrupts the indices
(see the counterexample, where one id ends up in two fee buckets). -/
theorem claim_C6 (m : Mempool) (item : MempoolItem)
    (h : get? m.spends item.name = none) : remove_spend m item = none := by
  have hdel : del? m.spends item.name = none :=
    del?_eq_none_iff.2 (get?_eq_none_iff.1 h)
  rcases hR : delAll? m.removals item.bundle_removals with _ | R
  · simp [remove_spend, hR]
  rcases hA : delAll? m.additions item.bundle_additions with _ | A
  · simp [remove_spend, hR, hA]
  simp [remove_spend, hR, hA, hdel]

theorem claim_C6_witness :
    get? (create 3).spends itemA.name = none ∧ remove_spend (create 3) itemA = none :=
  ⟨by decide, claim_C6 (create 3) itemA (by decide)⟩

/-- C6 counterexample: admitting an entry whose id 1 is already admitted (at
a different fee rate) does not fail: the call completes, `spends[1]` is
silently overwritten, and id 1 now sits in both bucket 5 and bucket 3 — a
silent index corruption instead of a loud failure. -/
theorem claim_C6_cex :
    get? poolA.spends itemA2.name = some itemA ∧
    add_to_pool poolA itemA2 itemA2.bundle_additions itemA2.bundle_removals = some poolDup ∧
    bucket_get poolDup 5 1 = some itemA ∧
    bucket_get poolDup 3 1 = some itemA2 ∧
    ¬ Coherent poolDup := by decide

/-- C7: removing an admitted entry of a coherent pool (coherence rules out
another admitted entry sharing its coins) completes and deletes its id from
`spends`, deletes its id from its `sorted_spends` fee bucket — deleting the
bucket itself when it becomes empty — deletes each of its consumed coins from
`removals` and each of its produced coins from `additions`, and leaves every
other id, bucket and coin unchanged. -/
theorem claim_C7 (m : Mempool) (item : MempoolItem)
    (hc : Coherent m) (hmem : get? m.spends item.name = some item) :
    ∃ m', remove_spend m item = some m' ∧
      (∀ n, get? m'.spends n = if n = item.name then none else get? m.spends n) ∧
      (∀ f, f ≠ item.fee_per_cost → get? m'.sorted_spends f = get? m.sorted_spends f) ∧
      (∃ b b', get? m.sorted_spends item.fee_per_cost = some b ∧
        del? b item.name = some b' ∧
        (∀ n, get? b' n = if n = item.name then none else get? b n) ∧
        get? m'.sorted_spends item.fee_per_cost = (if b' = [] then none else some b')) ∧
      (∀ c, get? m'.removals c = if c ∈ item.bundle_removals then none else get? m.removals c) ∧
      (∀ c, get? m'.additions c = if c ∈ item.bundle_additions then none else get? m.additions c) := by
  obtain ⟨m', h1, h2, h3, h4, h5, h6, _, _, _, _⟩ := remove_spend_spec hc hmem
  exact ⟨m', h1, h2, h3, h4, h5, h6⟩

theorem claim_C7_witness :
    Coherent poolAB ∧ get? poolAB.spends itemB.name = some itemB ∧
    (∃ m', remove_spend poolAB itemB = some m' ∧
      (∀ n, get? m'.spends n = if n = itemB.name then none else get? poolAB.spends n) ∧
      (∀ f, f ≠ itemB.fee_per_cost → get? m'.sorted_spends f = get? poolAB.sorted_spends f) ∧
      (∃ b b', get? poolAB.sorted_spends itemB.fee_per_cost = some b ∧
        del? b itemB.name = some b' ∧
        (∀ n, get? b' n = if n = itemB.name then none else get? b n) ∧
        get? m'.sorted_spends itemB.fee_per_cost = (if b' = [] then none else some b')) ∧
      (∀ c, get? m'.removals c =
        if c ∈ itemB.bundle_removals then none else get? poolAB.removals c) ∧
      (∀ c, get? m'.additions c =
        if c ∈ itemB.bundle_additions then none else get? poolAB.additions c)) :=
  ⟨by decide, by decide, claim_C7 poolAB itemB (by decide) (by decide)⟩

/-- C8 (Scenario B): capacity 1; after admitting X (fee rate 1) the pool is
full, and admitting Y (fee rate 1, a tie) deterministically evicts X — the
first-inserted member of the minimum bucket — leaving the pool holding
exactly Y. -/
theorem claim_C8 :
    add_to_pool (create 1) itemX1 itemX1.bundle_additions itemX1.bundle_removals =
      some poolX1 ∧
    at_full_capacity poolX1 = true ∧
    add_to_pool poolX1 itemY1 itemY1.bundle_additions itemY1.bundle_removals =
      some poolY1 ∧
    get? poolY1.spends itemY1.name = some itemY1 ∧
    get? poolY1.spends itemX1.name = none ∧
    keys poolY1.spends = [itemY1.name] := by decide

/-- C9: in every state reachable by completed calls — no precondition needed —
`sorted_spends` maps no fee rate to an empty bucket; and concretely
(Scenario C) removing the only entry X at fee rate 7 from a pool holding only
X leaves `sorted_spends` with no key 7 at all. -/
theorem claim_C9 :
    (∀ m : Mempool, Reachable m → no_empty_buckets m) ∧
    (remove_spend pool7 item7 = some pool7r ∧
      get? pool7r.sorted_spends 7 = none ∧ 7 ∉ keys pool7r.sorted_spends) :=
  ⟨fun _ h => (reachable_buckets_wf h).2, by decide⟩

theorem claim_C9_witness : no_empty_buckets pool7r := by
  have h1 : add_to_pool (create 3) item7 item7.bundle_additions item7.bundle_removals =
      some pool7 := by decide
  have h2 : remove_spend pool7 item7 = some pool7r := by decide
  exact claim_C9.1 pool7r (Reachable.removed (Reachable.added (Reachable.created 3) h1) h2)

/-- C10: admitting entry 1 consuming coin 100 and then entry 2 also consuming
coin 100 silently overwrites `removals[100]` to entry 2; a subsequent
`remove_spend` of entry 1 then deletes coin 100 from `removals` entirely,
leaving the still-admitted entry 2 with a consumed coin that has no mapping. -/
theorem claim_C10 :
    add_to_pool (create 10) itemE1 itemE1.bundle_additions itemE1.bundle_removals =
      some poolF1 ∧
    get? poolF1.removals 100 = some itemE1 ∧
    add_to_pool poolF1 itemE2 itemE2.bundle_additions itemE2.bundle_removals =
      some poolF2 ∧
    get? poolF2.removals 100 = some itemE2 ∧
    remove_spend poolF2 itemE1 = some poolF3 ∧
    get? poolF3.spends itemE2.name = some itemE2 ∧
    100 ∈ itemE2.bundle_removals ∧
    get? poolF3.removals 100 = none := by decide

end Mempool

end Chia
